import Mathlib

set_option maxRecDepth 100000

/-!
Shallow embedding of the ChaCha20 stream cipher implementation
(chacha20_main.py) and verification of its specification.

Bytes are modelled as natural numbers; 32-bit words are natural numbers
kept below 2^32 by explicit masking with 0xFFFFFFFF, exactly where the
Python source masks.  Fallible operations (struct.unpack length errors)
are modelled with Option.
-/

/-- Embedding of rotate_left: left rotation of a 32-bit value.
The source masks the value to 32 bits, reduces the shift mod 32, then
computes ((value << shift) | (value >> (32 - shift))) & 0xFFFFFFFF. -/
def rotate_left (value shift : Nat) : Nat :=
  let v := value &&& 0xFFFFFFFF
  let s := shift &&& 31
  ((v <<< s) ||| (v >>> (32 - s))) &&& 0xFFFFFFFF

/-- Embedding of quarter_round: the four ARX steps of RFC 8439,
performed as in-place updates on the 16-word state list.  Each Python
statement state[i] = e becomes a List.set on the current list. -/
def quarter_round (state : List Nat) (a b c d : Nat) : List Nat :=
  -- Step 1: a += b; d ^= a; d <<<= 16
  let state := state.set a ((state.getD a 0 + state.getD b 0) &&& 0xFFFFFFFF)
  let state := state.set d (state.getD d 0 ^^^ state.getD a 0)
  let state := state.set d (rotate_left (state.getD d 0) 16)
  -- Step 2: c += d; b ^= c; b <<<= 12
  let state := state.set c ((state.getD c 0 + state.getD d 0) &&& 0xFFFFFFFF)
  let state := state.set b (state.getD b 0 ^^^ state.getD c 0)
  let state := state.set b (rotate_left (state.getD b 0) 12)
  -- Step 3: a += b; d ^= a; d <<<= 8
  let state := state.set a ((state.getD a 0 + state.getD b 0) &&& 0xFFFFFFFF)
  let state := state.set d (state.getD d 0 ^^^ state.getD a 0)
  let state := state.set d (rotate_left (state.getD d 0) 8)
  -- Step 4: c += d; b ^= c; b <<<= 7
  let state := state.set c ((state.getD c 0 + state.getD d 0) &&& 0xFFFFFFFF)
  let state := state.set b (state.getD b 0 ^^^ state.getD c 0)
  state.set b (rotate_left (state.getD b 0) 7)

/-- Little-endian decoding of a byte list into 32-bit words, the
semantics of struct.unpack with format <kI on a byte string: each group
of four bytes b0 b1 b2 b3 becomes b0 + 256*b1 + 2^16*b2 + 2^24*b3.
A trailing group of fewer than four bytes never occurs at call sites
(lengths 32 and 12) and is dropped. -/
def bytes_to_words_le : List Nat → List Nat
  | b0 :: b1 :: b2 :: b3 :: rest =>
      (b0 + b1 * 256 + b2 * 65536 + b3 * 16777216) :: bytes_to_words_le rest
  | _ => []

/-- Little-endian encoding of one 32-bit word as four bytes, the
semantics of struct.pack with format <I. -/
def pack_word_le (w : Nat) : List Nat :=
  [w % 256, w / 256 % 256, w / 65536 % 256, w / 16777216 % 256]

/-- Little-endian serialization of a word list to bytes, the semantics
of struct.pack with format <16I at the call site. -/
def pack_le_words : List Nat → List Nat
  | [] => []
  | w :: ws => pack_word_le w ++ pack_le_words ws

/-- Embedding of initial_state: constants ++ key words ++ [counter] ++
nonce words.  struct.unpack raises struct.error when the key is not
exactly 32 bytes or the nonce not exactly 12 bytes; that failure is
modelled as none. -/
def initial_state (key : List Nat) (counter : Nat) (nonce : List Nat) :
    Option (List Nat) :=
  if key.length = 32 ∧ nonce.length = 12 then
    some ([0x61707865, 0x3320646e, 0x79622d32, 0x6b206574] ++
      bytes_to_words_le key ++ [counter] ++ bytes_to_words_le nonce)
  else none

/-- One iteration of the round loop body in chacha20_block: four column
quarter-rounds followed by four diagonal quarter-rounds. -/
def double_round (s : List Nat) : List Nat :=
  let s := quarter_round s 0 4 8 12
  let s := quarter_round s 1 5 9 13
  let s := quarter_round s 2 6 10 14
  let s := quarter_round s 3 7 11 15
  let s := quarter_round s 0 5 10 15
  let s := quarter_round s 1 6 11 12
  let s := quarter_round s 2 7 8 13
  quarter_round s 3 4 9 14

/-- Embedding of chacha20_block: build the initial state, run the
round loop ten times on a working copy, add the original state
word-wise masked to 32 bits, and serialize little-endian. -/
def chacha20_block (key : List Nat) (counter : Nat) (nonce : List Nat) :
    Option (List Nat) :=
  match initial_state key counter nonce with
  | none => none
  | some state =>
      let working_state := (List.range 10).foldl (fun w _ => double_round w) state
      let final_state :=
        (List.range 16).map
          (fun i => (working_state.getD i 0 + state.getD i 0) &&& 0xFFFFFFFF)
      some (pack_le_words final_state)

/-- The per-block XOR step of chacha20_encrypt: bytes
plaintext[start_pos + i] ^ keystream[i] for i below block_size. -/
def xor_block (plaintext keystream : List Nat) (start_pos block_size : Nat) :
    List Nat :=
  (List.range block_size).map
    (fun i => plaintext.getD (start_pos + i) 0 ^^^ keystream.getD i 0)

/-- Embedding of chacha20_encrypt: empty input short-circuits to the
empty output before any state construction; otherwise the block loop
runs over counters 0 .. ceil(len/64) - 1, calling chacha20_block with
counter + initial_counter and appending the XORed slice. -/
def chacha20_encrypt (key nonce plaintext : List Nat) (initial_counter : Nat) :
    Option (List Nat) :=
  if plaintext.length = 0 then some [] else
  (List.range ((plaintext.length + 63) / 64)).foldlM
    (fun ciphertext counter =>
      match chacha20_block key (counter + initial_counter) nonce with
      | none => none
      | some keystream =>
          some (ciphertext ++ xor_block plaintext keystream (counter * 64)
            (min (counter * 64 + 64) plaintext.length - counter * 64)))
    []

/-! RFC 8439 test vectors used by the repository's tests. -/

/-- The RFC 8439 key 000102...1f: the 32 ascending bytes. -/
def rfc_key : List Nat := List.range 32

/-- The nonce 000000000000004a00000000 used by the repository's tests
(the RFC 8439 section 2.4.2 encryption nonce). -/
def rfc_nonce : List Nat := [0, 0, 0, 0, 0, 0, 0, 0x4a, 0, 0, 0, 0]

/-- The RFC 8439 section 2.3.2 block-function nonce
000000090000004a00000000. -/
def rfc_block_nonce : List Nat := [0, 0, 0, 9, 0, 0, 0, 0x4a, 0, 0, 0, 0]

/-- The 64-byte RFC 8439 reference keystream for counter 1. -/
def rfc_block_output : List Nat :=
  [0x10, 0xf1, 0xe7, 0xe4, 0xd1, 0x3b, 0x59, 0x15,
   0x50, 0x0f, 0xdd, 0x1f, 0xa3, 0x20, 0x71, 0xc4,
   0xc7, 0xd1, 0xf4, 0xc7, 0x33, 0xc0, 0x68, 0x03,
   0x04, 0x22, 0xaa, 0x9a, 0xc3, 0xd4, 0x6c, 0x4e,
   0xd2, 0x82, 0x64, 0x46, 0x07, 0x9f, 0xaa, 0x09,
   0x14, 0xc2, 0xd7, 0x05, 0xd9, 0x8b, 0x02, 0xa2,
   0xb5, 0x12, 0x9c, 0xd1, 0xde, 0x16, 0x4e, 0xb9,
   0xcb, 0xd0, 0x83, 0xe8, 0xa2, 0x50, 0x3c, 0x4e]

/-- The RFC 8439 section 2.2.1 quarter-round test state. -/
def rfc_qr_state : List Nat :=
  [0x879531e0, 0xc5ecf37d, 0x516461b1, 0xc9a62f8a,
   0x44c20ef3, 0x3390af7f, 0xd9fc690b, 0x2a5f714c,
   0x53372767, 0xb00a5631, 0x974c541a, 0x359e9963,
   0x5c971061, 0x3d631689, 0x2098d9d6, 0x91dbd320]

/-- The RFC 8439 section 2.2.1 expected state after QR(2, 7, 8, 13). -/
def rfc_qr_expected : List Nat :=
  [0x879531e0, 0xc5ecf37d, 0xbdb886dc, 0xc9a62f8a,
   0x44c20ef3, 0x3390af7f, 0xd9fc690b, 0xcfacafd2,
   0xe46bea80, 0xb00a5631, 0x974c541a, 0x359e9963,
   0x5c971061, 0xccc07c79, 0x2098d9d6, 0x91dbd320]

/-- The pure four-step ARX sequence of RFC 8439 on a quadruple of words,
written from the spec text of section 4.2: each step is an addition
masked to 32 bits, an XOR, and a rotation by the fixed constants
16, 12, 8, 7. -/
def qr_words (wa wb wc wd : Nat) : Nat × Nat × Nat × Nat :=
  let wa := (wa + wb) &&& 0xFFFFFFFF
  let wd := rotate_left (wd ^^^ wa) 16
  let wc := (wc + wd) &&& 0xFFFFFFFF
  let wb := rotate_left (wb ^^^ wc) 12
  let wa := (wa + wb) &&& 0xFFFFFFFF
  let wd := rotate_left (wd ^^^ wa) 8
  let wc := (wc + wd) &&& 0xFFFFFFFF
  let wb := rotate_left (wb ^^^ wc) 7
  (wa, wb, wc, wd)

/-! Arithmetic helper lemmas about 32-bit masking. -/

theorem and_mask_eq_mod (x : Nat) : x &&& 0xFFFFFFFF = x % 4294967296 := by
  have h1 : (0xFFFFFFFF : Nat) = 2 ^ 32 - 1 := by norm_num
  have h2 : (4294967296 : Nat) = 2 ^ 32 := by norm_num
  rw [h1, h2]
  apply Nat.eq_of_testBit_eq
  intro i
  rw [Nat.testBit_land, Nat.testBit_two_pow_sub_one, Nat.testBit_mod_two_pow]
  cases Nat.decLt i 32 with
  | isTrue h => simp [h]
  | isFalse h => simp [h]

theorem mod_and_mask (x : Nat) : (x % 4294967296) &&& 0xFFFFFFFF = x &&& 0xFFFFFFFF := by
  rw [and_mask_eq_mod, and_mask_eq_mod]
  omega

theorem rotate_left_mod (x s : Nat) :
    rotate_left (x % 4294967296) s = rotate_left x s := by
  simp only [rotate_left, mod_and_mask]

theorem rotate_left_xor_mod (x y s : Nat) :
    rotate_left ((x % 4294967296) ^^^ y) s = rotate_left (x ^^^ y) s := by
  simp only [rotate_left, Nat.and_xor_distrib_right, mod_and_mask]

theorem add_mod_mask (w x : Nat) :
    (w + x % 4294967296) &&& 0xFFFFFFFF = (w + x) &&& 0xFFFFFFFF := by
  rw [and_mask_eq_mod, and_mask_eq_mod]
  omega

/-- The pure ARX quadruple only depends on its fourth argument modulo 2^32. -/
theorem qr_words_mod_d (wa wb wc x : Nat) :
    qr_words wa wb wc (x % 4294967296) = qr_words wa wb wc x := by
  simp only [qr_words, rotate_left_xor_mod]

/-! List access helper lemmas. -/

theorem getD_set_self (l : List Nat) {i : Nat} (x : Nat) (h : i < l.length) :
    (l.set i x).getD i 0 = x := by
  simp [List.getD, List.getElem?_set_self h]

theorem getD_set_ne (l : List Nat) {i j : Nat} (x : Nat) (h : i ≠ j) :
    (l.set i x).getD j 0 = l.getD j 0 := by
  simp [List.getD, List.getElem?_set_ne h]

theorem ext_getD {l1 l2 : List Nat} (hlen : l1.length = l2.length)
    (h : ∀ i, i < l1.length → l1.getD i 0 = l2.getD i 0) : l1 = l2 := by
  apply List.ext_getElem hlen
  intro n h1 h2
  have := h n h1
  rwa [List.getD_eq_getElem _ _ h1, List.getD_eq_getElem _ _ h2] at this

theorem length_quarter_round (s : List Nat) (a b c d : Nat) :
    (quarter_round s a b c d).length = s.length := by
  simp [quarter_round]

theorem length_double_round (s : List Nat) :
    (double_round s).length = s.length := by
  simp [double_round, length_quarter_round]

example : quarter_round rfc_qr_state 2 7 8 13 = rfc_qr_expected := by decide

example : chacha20_block rfc_key 1 rfc_block_nonce = some rfc_block_output := by
  decide
/-- Full characterization of quarter_round at distinct in-range indices:
it preserves the length, writes the pure ARX quadruple results at the
four indices, and leaves every other position unchanged. -/
theorem quarter_round_getD (s : List Nat) {a b c d : Nat}
    (ha : a < s.length) (hb : b < s.length) (hc : c < s.length) (hd : d < s.length)
    (hab : a ≠ b) (hac : a ≠ c) (had : a ≠ d)
    (hbc : b ≠ c) (hbd : b ≠ d) (hcd : c ≠ d) :
    (quarter_round s a b c d).length = s.length ∧
    (quarter_round s a b c d).getD a 0 =
      (qr_words (s.getD a 0) (s.getD b 0) (s.getD c 0) (s.getD d 0)).1 ∧
    (quarter_round s a b c d).getD b 0 =
      (qr_words (s.getD a 0) (s.getD b 0) (s.getD c 0) (s.getD d 0)).2.1 ∧
    (quarter_round s a b c d).getD c 0 =
      (qr_words (s.getD a 0) (s.getD b 0) (s.getD c 0) (s.getD d 0)).2.2.1 ∧
    (quarter_round s a b c d).getD d 0 =
      (qr_words (s.getD a 0) (s.getD b 0) (s.getD c 0) (s.getD d 0)).2.2.2 ∧
    ∀ i, i ≠ a → i ≠ b → i ≠ c → i ≠ d →
      (quarter_round s a b c d).getD i 0 = s.getD i 0 := by
  refine ⟨length_quarter_round s a b c d, ?_, ?_, ?_, ?_, ?_⟩
  · simp [quarter_round, qr_words, getD_set_self, getD_set_ne,
      hab, hac, had, hbc, hbd, hcd,
      hab.symm, hac.symm, had.symm, hbc.symm, hbd.symm, hcd.symm,
      ha, hb, hc, hd]
  · simp [quarter_round, qr_words, getD_set_self, getD_set_ne,
      hab, hac, had, hbc, hbd, hcd,
      hab.symm, hac.symm, had.symm, hbc.symm, hbd.symm, hcd.symm,
      ha, hb, hc, hd]
  · simp [quarter_round, qr_words, getD_set_self, getD_set_ne,
      hab, hac, had, hbc, hbd, hcd,
      hab.symm, hac.symm, had.symm, hbc.symm, hbd.symm, hcd.symm,
      ha, hb, hc, hd]
  · simp [quarter_round, qr_words, getD_set_self, getD_set_ne,
      hab, hac, had, hbc, hbd, hcd,
      hab.symm, hac.symm, had.symm, hbc.symm, hbd.symm, hcd.symm,
      ha, hb, hc, hd]
  · intro i hia hib hic hid
    simp [quarter_round, getD_set_ne,
      Ne.symm hia, Ne.symm hib, Ne.symm hic, Ne.symm hid]
/-- C3: quarter_round performs exactly the four-step ARX sequence with
rotation constants 16, 12, 8, 7 on the four addressed words of a
16-word state, leaving the other twelve words unchanged, and on the
RFC 8439 section 2.2.1 test state with indices (2, 7, 8, 13) it yields
the RFC expected state exactly. -/
theorem quarter_round_spec_c3 (s : List Nat) (a b c d : Nat)
    (hlen : s.length = 16)
    (ha : a < 16) (hb : b < 16) (hc : c < 16) (hd : d < 16)
    (hab : a ≠ b) (hac : a ≠ c) (had : a ≠ d)
    (hbc : b ≠ c) (hbd : b ≠ d) (hcd : c ≠ d) :
    (quarter_round s a b c d).length = 16 ∧
    (quarter_round s a b c d).getD a 0 =
      (qr_words (s.getD a 0) (s.getD b 0) (s.getD c 0) (s.getD d 0)).1 ∧
    (quarter_round s a b c d).getD b 0 =
      (qr_words (s.getD a 0) (s.getD b 0) (s.getD c 0) (s.getD d 0)).2.1 ∧
    (quarter_round s a b c d).getD c 0 =
      (qr_words (s.getD a 0) (s.getD b 0) (s.getD c 0) (s.getD d 0)).2.2.1 ∧
    (quarter_round s a b c d).getD d 0 =
      (qr_words (s.getD a 0) (s.getD b 0) (s.getD c 0) (s.getD d 0)).2.2.2 ∧
    (∀ i, i ≠ a → i ≠ b → i ≠ c → i ≠ d →
      (quarter_round s a b c d).getD i 0 = s.getD i 0) ∧
    quarter_round rfc_qr_state 2 7 8 13 = rfc_qr_expected := by
  obtain ⟨h0, h1, h2, h3, h4, h5⟩ :=
    quarter_round_getD s (hlen ▸ ha) (hlen ▸ hb) (hlen ▸ hc) (hlen ▸ hd)
      hab hac had hbc hbd hcd
  exact ⟨hlen ▸ h0, h1, h2, h3, h4, h5, by decide⟩

/-- Witness for C3 at the RFC 8439 section 2.2.1 inputs. -/
theorem quarter_round_spec_c3_witness :
    (quarter_round rfc_qr_state 2 7 8 13).getD 8 0 =
      (qr_words (rfc_qr_state.getD 2 0) (rfc_qr_state.getD 7 0)
        (rfc_qr_state.getD 8 0) (rfc_qr_state.getD 13 0)).2.2.1 :=
  (quarter_round_spec_c3 rfc_qr_state 2 7 8 13 (by decide)
    (by decide) (by decide) (by decide) (by decide)
    (by decide) (by decide) (by decide)
    (by decide) (by decide) (by decide)).2.2.2.1
theorem getD_cons_add_four (b0 b1 b2 b3 : Nat) (t : List Nat) (n : Nat) :
    (b0 :: b1 :: b2 :: b3 :: t).getD (n + 4) 0 = t.getD n 0 := rfl

theorem length_bytes_to_words_le : ∀ l : List Nat,
    (bytes_to_words_le l).length = l.length / 4
  | [] => by simp [bytes_to_words_le]
  | [_] => by simp [bytes_to_words_le]
  | [_, _] => by simp [bytes_to_words_le]
  | [_, _, _] => by simp [bytes_to_words_le]
  | b0 :: b1 :: b2 :: b3 :: rest => by
      simp only [bytes_to_words_le, List.length_cons,
        length_bytes_to_words_le rest]
      omega

theorem getD_bytes_to_words_le : ∀ (l : List Nat) (i : Nat),
    4 * i + 4 ≤ l.length →
    (bytes_to_words_le l).getD i 0 =
      l.getD (4 * i) 0 + l.getD (4 * i + 1) 0 * 256 +
        l.getD (4 * i + 2) 0 * 65536 + l.getD (4 * i + 3) 0 * 16777216
  | b0 :: b1 :: b2 :: b3 :: rest, 0, _ => by
      simp [bytes_to_words_le]
  | b0 :: b1 :: b2 :: b3 :: rest, i + 1, h => by
      have hlen : 4 * i + 4 ≤ rest.length := by
        simp only [List.length_cons] at h
        omega
      have ih := getD_bytes_to_words_le rest i hlen
      have e0 : 4 * (i + 1) = 4 * i + 4 := by ring
      have e1 : 4 * (i + 1) + 1 = 4 * i + 1 + 4 := by ring
      have e2 : 4 * (i + 1) + 2 = 4 * i + 2 + 4 := by ring
      have e3 : 4 * (i + 1) + 3 = 4 * i + 3 + 4 := by ring
      simp only [bytes_to_words_le, List.getD_cons_succ, e0, e1, e2, e3,
        getD_cons_add_four]
      exact ih
  | [], i, h => by
      simp only [List.length_nil] at h
      omega
  | [_], i, h => by
      simp only [List.length_cons, List.length_nil] at h
      omega
  | [_, _], i, h => by
      simp only [List.length_cons, List.length_nil] at h
      omega
  | [_, _, _], i, h => by
      simp only [List.length_cons, List.length_nil] at h
      omega
/-- C4: initial_state returns exactly 16 words: the four fixed
constants, the key decoded as 8 little-endian words, the counter, and
the nonce decoded as 3 little-endian words.  Determinism is immediate
since initial_state is a pure function of its arguments. -/
theorem initial_state_layout_c4 (key nonce : List Nat) (counter : Nat)
    (hk : key.length = 32) (hn : nonce.length = 12) :
    ∃ s, initial_state key counter nonce = some s ∧
      s.length = 16 ∧
      s.getD 0 0 = 0x61707865 ∧ s.getD 1 0 = 0x3320646e ∧
      s.getD 2 0 = 0x79622d32 ∧ s.getD 3 0 = 0x6b206574 ∧
      (∀ i, i < 8 → s.getD (4 + i) 0 =
        key.getD (4 * i) 0 + key.getD (4 * i + 1) 0 * 256 +
          key.getD (4 * i + 2) 0 * 65536 + key.getD (4 * i + 3) 0 * 16777216) ∧
      s.getD 12 0 = counter ∧
      (∀ i, i < 3 → s.getD (13 + i) 0 =
        nonce.getD (4 * i) 0 + nonce.getD (4 * i + 1) 0 * 256 +
          nonce.getD (4 * i + 2) 0 * 65536 +
          nonce.getD (4 * i + 3) 0 * 16777216) := by
  have hkw : (bytes_to_words_le key).length = 8 := by
    rw [length_bytes_to_words_le, hk]
  have hnw : (bytes_to_words_le nonce).length = 3 := by
    rw [length_bytes_to_words_le, hn]
  refine ⟨[0x61707865, 0x3320646e, 0x79622d32, 0x6b206574] ++
      bytes_to_words_le key ++ [counter] ++ bytes_to_words_le nonce,
    by rw [initial_state, if_pos ⟨hk, hn⟩], ?_, ?_, ?_, ?_, ?_,
    ?_, ?_, ?_⟩
  · simp [List.length_append, hkw, hnw]
  · rfl
  · rfl
  · rfl
  · rfl
  · intro i hi
    have h1 : ([0x61707865, 0x3320646e, 0x79622d32, 0x6b206574] ++
        bytes_to_words_le key ++ [counter] ++ bytes_to_words_le nonce :
          List Nat).getD (4 + i) 0 =
        (bytes_to_words_le key ++ [counter] ++
          bytes_to_words_le nonce).getD i 0 := by
      rw [Nat.add_comm 4 i]
      exact getD_cons_add_four _ _ _ _ _ i
    rw [h1, List.append_assoc, List.getD_append _ _ 0 i (by omega),
      getD_bytes_to_words_le key i (by omega)]
  · have h1 : ([0x61707865, 0x3320646e, 0x79622d32, 0x6b206574] ++
        bytes_to_words_le key ++ [counter] ++ bytes_to_words_le nonce :
          List Nat).getD 12 0 =
        (bytes_to_words_le key ++ [counter] ++
          bytes_to_words_le nonce).getD 8 0 := by
      exact getD_cons_add_four _ _ _ _ _ 8
    rw [h1, List.append_assoc,
      List.getD_append_right _ _ 0 8 (by omega)]
    simp [hkw]
  · intro i hi
    have h1 : ([0x61707865, 0x3320646e, 0x79622d32, 0x6b206574] ++
        bytes_to_words_le key ++ [counter] ++ bytes_to_words_le nonce :
          List Nat).getD (13 + i) 0 =
        (bytes_to_words_le key ++ [counter] ++
          bytes_to_words_le nonce).getD (9 + i) 0 := by
      have e : 13 + i = (9 + i) + 4 := by ring
      rw [e]
      exact getD_cons_add_four _ _ _ _ _ (9 + i)
    rw [h1, List.append_assoc,
      List.getD_append_right _ _ 0 (9 + i) (by omega)]
    have e2 : 9 + i - (bytes_to_words_le key).length = i + 1 := by omega
    rw [e2, List.singleton_append, List.getD_cons_succ,
      getD_bytes_to_words_le nonce i (by omega)]

/-- Witness for C4 at the RFC key, nonce and counter 1. -/
theorem initial_state_layout_c4_witness :
    ∃ s, initial_state rfc_key 1 rfc_nonce = some s ∧ s.getD 12 0 = 1 := by
  obtain ⟨s, hs, _, _, _, _, _, _, h12, _⟩ :=
    initial_state_layout_c4 rfc_key rfc_nonce 1 (by decide) (by decide)
  exact ⟨s, hs, h12⟩
/-- C1 counterexample: on the nonce 000000000000004a00000000 that the
repository's block test supplies, chacha20_block with counter 1 does
not return the RFC 8439 reference keystream 10f1e7e4...; that keystream
belongs to the RFC section 2.3.2 nonce 000000090000004a00000000. -/
theorem chacha20_block_test_vector_fails :
    chacha20_block rfc_key 1 rfc_nonce ≠ some rfc_block_output := by decide

/-- C1 amended: with the RFC 8439 section 2.3.2 nonce
000000090000004a00000000, key 0x00..0x1f and counter 1, chacha20_block
returns exactly the 64-byte RFC reference keystream. -/
theorem chacha20_block_rfc_vector :
    chacha20_block rfc_key 1 rfc_block_nonce = some rfc_block_output := by
  decide

/-- C10: for empty input, chacha20_encrypt returns the empty byte
string for every key and nonce, of any length whatsoever: the
empty-input early return fires before key or nonce are inspected. -/
theorem chacha20_encrypt_empty_c10 (key nonce : List Nat) (ic : Nat) :
    chacha20_encrypt key nonce [] ic = some [] := rfl

/-- C8: when the key is not 32 bytes or the nonce is not 12 bytes,
initial_state fails with none (modelling struct.error), hence so do
chacha20_block and chacha20_encrypt on non-empty input; no truncated or
padded state is ever produced. -/
theorem invalid_lengths_fail_c8 (key nonce plaintext : List Nat)
    (counter ic : Nat) (h : key.length ≠ 32 ∨ nonce.length ≠ 12) :
    initial_state key counter nonce = none ∧
    chacha20_block key counter nonce = none ∧
    (plaintext ≠ [] → chacha20_encrypt key nonce plaintext ic = none) := by
  have his : ∀ c, initial_state key c nonce = none := by
    intro c
    rw [initial_state, if_neg]
    tauto
  have hblk : ∀ c, chacha20_block key c nonce = none := by
    intro c
    rw [chacha20_block, his c]
  refine ⟨his counter, hblk counter, ?_⟩
  intro hp
  have hlen : plaintext.length ≠ 0 := by simpa using hp
  rw [chacha20_encrypt, if_neg hlen]
  obtain ⟨m, hm⟩ : ∃ m, (plaintext.length + 63) / 64 = m + 1 :=
    ⟨(plaintext.length + 63) / 64 - 1, by omega⟩
  rw [hm, List.range_succ_eq_map, List.foldlM_cons, hblk]
  rfl

/-- Witness for C8 at an empty key and a valid-length nonce. -/
theorem invalid_lengths_fail_c8_witness :
    chacha20_encrypt [] rfc_nonce [0x41] 1 = none :=
  (invalid_lengths_fail_c8 [] rfc_nonce [0x41] 1 1
    (Or.inl (by decide))).2.2 (by decide)
/-- The double round as described by the spec, section 4.4 step 3: four
column quarter-rounds on (0,4,8,12), (1,5,9,13), (2,6,10,14),
(3,7,11,15) followed by four diagonal quarter-rounds on (0,5,10,15),
(1,6,11,12), (2,7,8,13), (3,4,9,14) - eight quarter-round calls. -/
def double_round_spec (t : List Nat) : List Nat :=
  quarter_round (quarter_round (quarter_round (quarter_round
    (quarter_round (quarter_round (quarter_round (quarter_round t
      0 4 8 12) 1 5 9 13) 2 6 10 14) 3 7 11 15)
      0 5 10 15) 1 6 11 12) 2 7 8 13) 3 4 9 14

theorem double_round_eq_spec : double_round = double_round_spec := rfl

theorem initial_state_some (key nonce : List Nat) (counter : Nat)
    (hk : key.length = 32) (hn : nonce.length = 12) :
    initial_state key counter nonce =
      some ([0x61707865, 0x3320646e, 0x79622d32, 0x6b206574] ++
        bytes_to_words_le key ++ [counter] ++ bytes_to_words_le nonce) := by
  rw [initial_state, if_pos ⟨hk, hn⟩]

theorem length_state_list (key nonce : List Nat) (counter : Nat)
    (hk : key.length = 32) (hn : nonce.length = 12) :
    ([0x61707865, 0x3320646e, 0x79622d32, 0x6b206574] ++
      bytes_to_words_le key ++ [counter] ++
      bytes_to_words_le nonce : List Nat).length = 16 := by
  simp [List.length_append, length_bytes_to_words_le, hk, hn]

theorem foldl_range_const (f : List Nat → List Nat) (n : Nat) (s : List Nat) :
    (List.range n).foldl (fun a _ => f a) s = f^[n] s := by
  induction n with
  | zero => rfl
  | succ n ih =>
      rw [List.range_succ, List.foldl_append]
      simp [Function.iterate_succ_apply', ih]

theorem length_iterate_double_round (n : Nat) (s : List Nat) :
    (double_round^[n] s).length = s.length := by
  induction n with
  | zero => rfl
  | succ n ih => rw [Function.iterate_succ_apply', length_double_round, ih]

theorem length_pack_le_words : ∀ ws : List Nat,
    (pack_le_words ws).length = 4 * ws.length
  | [] => rfl
  | w :: ws => by
      simp only [pack_le_words, pack_word_le, List.length_append,
        List.length_cons, length_pack_le_words ws]
      simp
      ring

theorem map_range_add_mod_zipWith (l1 l2 : List Nat)
    (h1 : l1.length = 16) (h2 : l2.length = 16) :
    (List.range 16).map (fun i => (l1.getD i 0 + l2.getD i 0) % 4294967296) =
      List.zipWith (fun w o => (w + o) % 4294967296) l1 l2 := by
  apply List.ext_getElem
  · simp [h1, h2]
  · intro i hi1 hi2
    have hi : i < 16 := by simpa using hi1
    rw [List.getElem_map, List.getElem_range, List.getElem_zipWith,
      List.getD_eq_getElem l1 0 (by omega), List.getD_eq_getElem l2 0 (by omega)]
/-- C2: for every 32-byte key, 12-byte nonce and counter,
chacha20_block builds the 16-word initial state s, applies exactly ten
double rounds to a working copy - each double round being the four
column quarter-rounds followed by the four diagonal quarter-rounds of
double_round_spec, hence 160 quarter-round calls in total - adds the
original state word-wise modulo 2^32, serializes the 16 words
little-endian word 0 first, and returns exactly 64 bytes. -/
theorem chacha20_block_structure_c2 (key nonce : List Nat) (counter : Nat)
    (hk : key.length = 32) (hn : nonce.length = 12) :
    ∃ s, initial_state key counter nonce = some s ∧
      chacha20_block key counter nonce =
        some (pack_le_words
          (List.zipWith (fun w o => (w + o) % 4294967296)
            (double_round_spec^[10] s) s)) ∧
      (∀ t, double_round_spec t =
        quarter_round (quarter_round (quarter_round (quarter_round
          (quarter_round (quarter_round (quarter_round (quarter_round t
            0 4 8 12) 1 5 9 13) 2 6 10 14) 3 7 11 15)
            0 5 10 15) 1 6 11 12) 2 7 8 13) 3 4 9 14) ∧
      ∀ out, chacha20_block key counter nonce = some out →
        out.length = 64 := by
  have hS := initial_state_some key nonce counter hk hn
  set S : List Nat := [0x61707865, 0x3320646e, 0x79622d32, 0x6b206574] ++
    bytes_to_words_le key ++ [counter] ++ bytes_to_words_le nonce with hSdef
  have hlen : S.length = 16 := length_state_list key nonce counter hk hn
  have hwlen : (double_round^[10] S).length = 16 := by
    rw [length_iterate_double_round, hlen]
  have hblock : chacha20_block key counter nonce =
      some (pack_le_words
        (List.zipWith (fun w o => (w + o) % 4294967296)
          (double_round_spec^[10] S) S)) := by
    rw [chacha20_block, hS]
    dsimp only
    rw [← double_round_eq_spec]
    have h1 : (List.range 10).foldl (fun w _ => double_round w) S =
        double_round^[10] S := foldl_range_const double_round 10 S
    rw [h1]
    have h2 : (List.range 16).map
        (fun i => ((double_round^[10] S).getD i 0 + S.getD i 0) &&& 0xFFFFFFFF) =
        (List.range 16).map
        (fun i => ((double_round^[10] S).getD i 0 + S.getD i 0) % 4294967296) := by
      simp only [and_mask_eq_mod]
    rw [h2, map_range_add_mod_zipWith _ _ hwlen hlen]
  refine ⟨S, hS, hblock, fun t => rfl, ?_⟩
  intro out hout
  rw [hblock] at hout
  have := Option.some.inj hout
  rw [← this, length_pack_le_words, List.length_zipWith, ← double_round_eq_spec,
    hwlen, hlen]
  simp

/-- Witness for C2 at the RFC key and block nonce with counter 1. -/
theorem chacha20_block_structure_c2_witness :
    ∃ s, initial_state rfc_key 1 rfc_block_nonce = some s ∧
      chacha20_block rfc_key 1 rfc_block_nonce =
        some (pack_le_words
          (List.zipWith (fun w o => (w + o) % 4294967296)
            (double_round_spec^[10] s) s)) := by
  obtain ⟨s, h1, h2, _, _⟩ :=
    chacha20_block_structure_c2 rfc_key rfc_block_nonce 1 (by decide) (by decide)
  exact ⟨s, h1, h2⟩
/-- The 16-word initial state as a pure list (the some-payload of
initial_state for valid lengths). -/
def state_list (key : List Nat) (counter : Nat) (nonce : List Nat) : List Nat :=
  [0x61707865, 0x3320646e, 0x79622d32, 0x6b206574] ++
    bytes_to_words_le key ++ [counter] ++ bytes_to_words_le nonce

/-- The 64 keystream bytes chacha20_block produces from a given initial
state: ten double rounds on a working copy, word-wise masked addition
of the original state, little-endian serialization. -/
def block_bytes_of_state (state : List Nat) : List Nat :=
  let working_state := (List.range 10).foldl (fun w _ => double_round w) state
  pack_le_words ((List.range 16).map
    (fun i => (working_state.getD i 0 + state.getD i 0) &&& 0xFFFFFFFF))

/-- The keystream block as a pure function of key, counter, nonce. -/
def block_bytes (key : List Nat) (counter : Nat) (nonce : List Nat) : List Nat :=
  block_bytes_of_state (state_list key counter nonce)

theorem chacha20_block_some (key nonce : List Nat)
    (hk : key.length = 32) (hn : nonce.length = 12) (c : Nat) :
    chacha20_block key c nonce = some (block_bytes key c nonce) := by
  rw [chacha20_block, initial_state_some key nonce c hk hn]
  rfl

theorem length_state_list' (key nonce : List Nat) (counter : Nat)
    (hk : key.length = 32) (hn : nonce.length = 12) :
    (state_list key counter nonce).length = 16 :=
  length_state_list key nonce counter hk hn

theorem length_block_bytes (key nonce : List Nat) (counter : Nat) :
    (block_bytes key counter nonce).length = 64 := by
  rw [block_bytes, block_bytes_of_state, length_pack_le_words]
  simp

theorem state_list_set_12 (key nonce : List Nat) (c c' : Nat)
    (hk : key.length = 32) :
    (state_list key c nonce).set 12 c' = state_list key c' nonce := by
  have hkw : (bytes_to_words_le key).length = 8 := by
    rw [length_bytes_to_words_le, hk]
  unfold state_list
  rw [List.append_assoc, List.append_assoc]
  rw [List.set_append_right 12 c' (by simp)]
  rw [List.set_append_right _ c' (by simp [hkw])]
  simp [hkw]
theorem state_list_getD_12 (key nonce : List Nat) (c : Nat)
    (hk : key.length = 32) (hn : nonce.length = 12) :
    (state_list key c nonce).getD 12 0 = c := by
  rw [← state_list_set_12 key nonce 0 c hk]
  exact getD_set_self _ c (by rw [length_state_list' key nonce 0 hk hn]; omega)

theorem state_list_getD_ne (key nonce : List Nat) (c c' i : Nat)
    (hk : key.length = 32) (hi : i ≠ 12) :
    (state_list key c nonce).getD i 0 = (state_list key c' nonce).getD i 0 := by
  rw [← state_list_set_12 key nonce c' c hk]
  exact getD_set_ne _ c (Ne.symm hi)

/-- The first column quarter-round absorbs the reduction of the counter
word modulo 2^32: the raw counter is XORed into a masked word and then
rotated (which masks first), so only its low 32 bits survive. -/
theorem qr_col1_mod (key nonce : List Nat) (c : Nat)
    (hk : key.length = 32) (hn : nonce.length = 12) :
    quarter_round (state_list key (c % 4294967296) nonce) 0 4 8 12 =
      quarter_round (state_list key c nonce) 0 4 8 12 := by
  have hl1 : (state_list key (c % 4294967296) nonce).length = 16 :=
    length_state_list' key nonce _ hk hn
  have hl2 : (state_list key c nonce).length = 16 :=
    length_state_list' key nonce c hk hn
  obtain ⟨k0, ka, kb, kc, kd, ko⟩ :=
    quarter_round_getD (state_list key (c % 4294967296) nonce)
      (a := 0) (b := 4) (c := 8) (d := 12)
      (by omega) (by omega) (by omega) (by omega)
      (by omega) (by omega) (by omega) (by omega) (by omega) (by omega)
  obtain ⟨m0, ma, mb, mc, md, mo⟩ :=
    quarter_round_getD (state_list key c nonce)
      (a := 0) (b := 4) (c := 8) (d := 12)
      (by omega) (by omega) (by omega) (by omega)
      (by omega) (by omega) (by omega) (by omega) (by omega) (by omega)
  have hargs : qr_words ((state_list key (c % 4294967296) nonce).getD 0 0)
      ((state_list key (c % 4294967296) nonce).getD 4 0)
      ((state_list key (c % 4294967296) nonce).getD 8 0)
      ((state_list key (c % 4294967296) nonce).getD 12 0) =
      qr_words ((state_list key c nonce).getD 0 0)
      ((state_list key c nonce).getD 4 0)
      ((state_list key c nonce).getD 8 0)
      ((state_list key c nonce).getD 12 0) := by
    rw [state_list_getD_ne key nonce (c % 4294967296) c 0 hk (by omega),
      state_list_getD_ne key nonce (c % 4294967296) c 4 hk (by omega),
      state_list_getD_ne key nonce (c % 4294967296) c 8 hk (by omega),
      state_list_getD_12 key nonce _ hk hn, state_list_getD_12 key nonce c hk hn,
      qr_words_mod_d]
  apply ext_getD (by rw [k0, m0, hl1, hl2])
  intro i hi
  have hi16 : i < 16 := by rw [k0, hl1] at hi; omega
  by_cases h0 : i = 0
  · rw [h0, ka, ma, hargs]
  by_cases h4 : i = 4
  · rw [h4, kb, mb, hargs]
  by_cases h8 : i = 8
  · rw [h8, kc, mc, hargs]
  by_cases h12 : i = 12
  · rw [h12, kd, md, hargs]
  · rw [ko i h0 h4 h8 h12, mo i h0 h4 h8 h12,
      state_list_getD_ne key nonce (c % 4294967296) c i hk h12]
theorem double_round_mod (key nonce : List Nat) (c : Nat)
    (hk : key.length = 32) (hn : nonce.length = 12) :
    double_round (state_list key (c % 4294967296) nonce) =
      double_round (state_list key c nonce) := by
  simp only [double_round]
  rw [qr_col1_mod key nonce c hk hn]

theorem iterate_double_round_mod (key nonce : List Nat) (c : Nat)
    (hk : key.length = 32) (hn : nonce.length = 12) :
    double_round^[10] (state_list key (c % 4294967296) nonce) =
      double_round^[10] (state_list key c nonce) := by
  have h1 : ∀ s, double_round^[10] s = double_round^[9] (double_round s) :=
    fun s => Function.iterate_succ_apply double_round 9 s
  rw [h1, h1, double_round_mod key nonce c hk hn]

/-- The keystream block depends on the counter only modulo 2^32. -/
theorem block_bytes_mod (key nonce : List Nat) (c : Nat)
    (hk : key.length = 32) (hn : nonce.length = 12) :
    block_bytes key (c % 4294967296) nonce = block_bytes key c nonce := by
  unfold block_bytes block_bytes_of_state
  rw [foldl_range_const, foldl_range_const,
    iterate_double_round_mod key nonce c hk hn]
  apply congrArg pack_le_words
  apply List.map_congr_left
  intro i hi
  have hi16 : i < 16 := List.mem_range.mp hi
  by_cases h12 : i = 12
  · rw [h12, state_list_getD_12 key nonce _ hk hn,
      state_list_getD_12 key nonce c hk hn, add_mod_mask]
  · rw [state_list_getD_ne key nonce (c % 4294967296) c i hk h12]
theorem foldlM_option_all_some (f : List Nat → Nat → Option (List Nat))
    (g : List Nat → Nat → List Nat)
    (hf : ∀ acc x, f acc x = some (g acc x)) :
    ∀ (l : List Nat) (acc : List Nat),
      List.foldlM f acc l = some (List.foldl g acc l)
  | [], _ => rfl
  | x :: xs, acc => by
      rw [List.foldlM_cons, hf acc x, List.foldl_cons]
      exact foldlM_option_all_some f g hf xs (g acc x)

theorem xor_block_eq_map_range' (p : List Nat) (K : Nat → List Nat) (s : Nat)
    (hbs : min (s * 64 + 64) p.length - s * 64 ≤ 64) :
    xor_block p (K s) (s * 64) (min (s * 64 + 64) p.length - s * 64) =
      (List.range' (s * 64) (min (s * 64 + 64) p.length - s * 64)).map
        (fun j => p.getD j 0 ^^^ (K (j / 64)).getD (j % 64) 0) := by
  rw [xor_block, List.range'_eq_map_range, List.map_map]
  apply List.map_congr_left
  intro i hi
  have h2 : i < min (s * 64 + 64) p.length - s * 64 := List.mem_range.mp hi
  have hdiv : (s * 64 + i) / 64 = s := by omega
  have hmod : (s * 64 + i) % 64 = i := by omega
  simp only [Function.comp_apply, hdiv, hmod]

/-- Closed form of the block loop of chacha20_encrypt: starting at
block counter s with k blocks to go, it appends to the accumulator the
bytes p[j] XOR K(j / 64)[j mod 64] for j in the covered input range. -/
theorem enc_foldl_eq (p : List Nat) (K : Nat → List Nat) :
    ∀ (k s : Nat) (acc : List Nat),
    List.foldl
      (fun ct counter => ct ++ xor_block p (K counter) (counter * 64)
        (min (counter * 64 + 64) p.length - counter * 64)) acc
      (List.range' s k) =
      acc ++ (List.range' (s * 64) (min ((s + k) * 64) p.length - s * 64)).map
        (fun j => p.getD j 0 ^^^ (K (j / 64)).getD (j % 64) 0) := by
  intro k
  induction k with
  | zero =>
      intro s acc
      have h0 : min ((s + 0) * 64) p.length - s * 64 = 0 := by omega
      simp [h0]
  | succ k ih =>
      intro s acc
      rw [List.range'_succ s k 1, List.foldl_cons, ih (s + 1), List.append_assoc]
      apply congrArg (acc ++ ·)
      rw [xor_block_eq_map_range' p K s (by omega)]
      by_cases hfull : s * 64 + 64 ≤ p.length
      · have hbs : min (s * 64 + 64) p.length - s * 64 = 64 := by omega
        have hT : min ((s + (k + 1)) * 64) p.length - s * 64 =
            (min ((s + 1 + k) * 64) p.length - (s + 1) * 64) + 64 := by omega
        rw [hbs, hT, ← List.map_append]
        apply congrArg
        have e1 : (s + 1) * 64 = s * 64 + 1 * 64 := by ring
        rw [e1]
        exact List.range'_append (s * 64) 64 _ 1
      · have hm : min ((s + 1 + k) * 64) p.length - (s + 1) * 64 = 0 := by omega
        have hT : min ((s + (k + 1)) * 64) p.length - s * 64 =
            min (s * 64 + 64) p.length - s * 64 := by omega
        rw [hm, hT]
        simp
/-- Byte j of the keystream: byte j mod 64 of the block generated for
block counter j / 64 plus the initial counter. -/
def keystream_byte (key nonce : List Nat) (ic j : Nat) : Nat :=
  (block_bytes key (j / 64 + ic) nonce).getD (j % 64) 0

/-- Bytewise closed form of chacha20_encrypt for valid key and nonce:
the output is the input XORed bytewise against the keystream. -/
theorem chacha20_encrypt_some (key nonce p : List Nat) (ic : Nat)
    (hk : key.length = 32) (hn : nonce.length = 12) :
    chacha20_encrypt key nonce p ic =
      some ((List.range p.length).map
        (fun j => p.getD j 0 ^^^ keystream_byte key nonce ic j)) := by
  by_cases hp : p.length = 0
  · rw [chacha20_encrypt, if_pos hp, hp]
    rfl
  · rw [chacha20_encrypt, if_neg hp]
    have hf : ∀ (acc : List Nat) (counter : Nat),
        (match chacha20_block key (counter + ic) nonce with
         | none => none
         | some keystream =>
             some (acc ++ xor_block p keystream (counter * 64)
               (min (counter * 64 + 64) p.length - counter * 64))) =
        some (acc ++ xor_block p (block_bytes key (counter + ic) nonce)
          (counter * 64) (min (counter * 64 + 64) p.length - counter * 64)) := by
      intro acc counter
      rw [chacha20_block_some key nonce hk hn (counter + ic)]
    have hconv := foldlM_option_all_some _ _ hf
      (List.range ((p.length + 63) / 64)) []
    rw [hconv, List.range_eq_range',
      enc_foldl_eq p (fun c => block_bytes key (c + ic) nonce)
        ((p.length + 63) / 64) 0 []]
    have hmin : min ((0 + (p.length + 63) / 64) * 64) p.length - 0 * 64 =
        p.length := by omega
    rw [hmin, Nat.zero_mul, ← List.range_eq_range']
    rfl
theorem getD_map_range (f : Nat → Nat) (n j : Nat) (h : j < n) :
    ((List.range n).map f).getD j 0 = f j := by
  rw [List.getD_eq_getElem _ _ (by simp [h]), List.getElem_map,
    List.getElem_range]

theorem getD_take (p : List Nat) (n j : Nat) (hj : j < n) (hlen : j < p.length) :
    (p.take n).getD j 0 = p.getD j 0 := by
  rw [List.getD_eq_getElem _ 0 (by simp; omega), List.getElem_take,
    List.getD_eq_getElem p 0 hlen]

/-- C7: for valid key and nonce the output length equals the input
length; the empty input maps to the empty output (with no block
generated, see the empty-input theorem of C10); and byte j of the
output consumes exactly keystream byte j mod 64 of block j / 64, so a
final partial block of N bytes consumes only the first N bytes of its
64-byte keystream block. -/
theorem chacha20_encrypt_length_c7 (key nonce p : List Nat) (ic : Nat)
    (hk : key.length = 32) (hn : nonce.length = 12) :
    ∃ out, chacha20_encrypt key nonce p ic = some out ∧
      out.length = p.length ∧ (p.length = 0 → out = []) ∧
      ∀ j, j < p.length → out.getD j 0 = p.getD j 0 ^^^
        (block_bytes key (j / 64 + ic) nonce).getD (j % 64) 0 := by
  refine ⟨_, chacha20_encrypt_some key nonce p ic hk hn, by simp, ?_, ?_⟩
  · intro h0
    simp [h0]
  · intro j hj
    rw [getD_map_range _ p.length j hj, keystream_byte]

/-- Witness for C7 at a 3-byte input. -/
theorem chacha20_encrypt_length_c7_witness :
    ∃ out, chacha20_encrypt rfc_key rfc_nonce [1, 2, 3] 1 = some out ∧
      out.length = ([1, 2, 3] : List Nat).length ∧
      (([1, 2, 3] : List Nat).length = 0 → out = []) ∧
      ∀ j, j < ([1, 2, 3] : List Nat).length →
        out.getD j 0 = ([1, 2, 3] : List Nat).getD j 0 ^^^
          (block_bytes rfc_key (j / 64 + 1) rfc_nonce).getD (j % 64) 0 :=
  chacha20_encrypt_length_c7 rfc_key rfc_nonce [1, 2, 3] 1
    (by decide) (by decide)

/-- C5: the transform is an involution: encrypting the ciphertext with
the same key, nonce and initial counter returns the plaintext. -/
theorem chacha20_encrypt_involution_c5 (key nonce p : List Nat) (ic : Nat)
    (hk : key.length = 32) (hn : nonce.length = 12) (ct : List Nat)
    (hct : chacha20_encrypt key nonce p ic = some ct) :
    chacha20_encrypt key nonce ct ic = some p := by
  rw [chacha20_encrypt_some key nonce p ic hk hn] at hct
  obtain rfl := (Option.some.inj hct).symm
  rw [chacha20_encrypt_some key nonce _ ic hk hn]
  apply congrArg
  simp only [List.length_map, List.length_range]
  apply ext_getD (by simp)
  intro j hj
  have hj' : j < p.length := by simpa using hj
  rw [getD_map_range _ p.length j hj', getD_map_range _ p.length j hj',
    Nat.xor_cancel_right]

/-- Witness for C5: a 5-byte message encrypted then decrypted under the
RFC key and nonce. -/
theorem chacha20_encrypt_involution_c5_witness :
    chacha20_encrypt rfc_key rfc_nonce [106, 42, 61, 159, 47] 1 =
      some [0x48, 0x65, 0x6c, 0x6c, 0x6f] :=
  chacha20_encrypt_involution_c5 rfc_key rfc_nonce
    [0x48, 0x65, 0x6c, 0x6c, 0x6f] 1 (by decide) (by decide)
    [106, 42, 61, 159, 47] (by decide)
/-- C9: outputs for a prefix of an input, under identical key, nonce
and initial counter, agree byte-for-byte over the common prefix:
earlier blocks of the output do not depend on later input bytes. -/
theorem chacha20_encrypt_prefix_c9 (key nonce p : List Nat) (n ic : Nat)
    (hk : key.length = 32) (hn : nonce.length = 12) (o1 o2 : List Nat)
    (h1 : chacha20_encrypt key nonce (p.take n) ic = some o1)
    (h2 : chacha20_encrypt key nonce p ic = some o2) :
    o1 = o2.take (p.take n).length := by
  rw [chacha20_encrypt_some key nonce (p.take n) ic hk hn] at h1
  rw [chacha20_encrypt_some key nonce p ic hk hn] at h2
  obtain rfl := (Option.some.inj h1).symm
  obtain rfl := (Option.some.inj h2).symm
  apply ext_getD
  · simp only [List.length_map, List.length_range, List.length_take]
    omega
  · intro j hj
    simp only [List.length_map, List.length_range, List.length_take] at hj
    have hrhs : (List.take (List.take n p).length
        (List.map (fun j => p.getD j 0 ^^^ keystream_byte key nonce ic j)
          (List.range p.length))).getD j 0 =
        p.getD j 0 ^^^ keystream_byte key nonce ic j := by
      rw [List.getD_eq_getElem _ 0 (by
          simp only [List.length_take, List.length_map, List.length_range]
          omega),
        List.getElem_take, List.getElem_map, List.getElem_range]
    rw [hrhs, getD_map_range _ _ j (by simp only [List.length_take]; omega),
      getD_take p n j (by omega) (by omega)]

/-- Witness for C9: the 2-byte input [1, 2] is a prefix of [1, 2, 3]. -/
theorem chacha20_encrypt_prefix_c9_witness :
    ([35, 77] : List Nat) =
      ([35, 77, 82] : List Nat).take (([1, 2, 3] : List Nat).take 2).length :=
  chacha20_encrypt_prefix_c9 rfc_key rfc_nonce [1, 2, 3] 2 1
    (by decide) (by decide) [35, 77] [35, 77, 82] (by decide) (by decide)

/-- C6: the keystream block XORed against input bytes of block i is the
block function output for counter initial_counter + i reduced modulo
2^32: chacha20_block gives identical output for the raw and the wrapped
counter, and output byte j of block i is the input byte XORed with byte
j - i*64 of the block for the wrapped counter. -/
theorem chacha20_encrypt_counter_wrap_c6 (key nonce p : List Nat) (ic i : Nat)
    (hk : key.length = 32) (hn : nonce.length = 12)
    (hi : i < (p.length + 63) / 64) :
    chacha20_block key (ic + i) nonce =
      chacha20_block key ((ic + i) % 4294967296) nonce ∧
    ∀ out, chacha20_encrypt key nonce p ic = some out →
      ∀ j, i * 64 ≤ j → j < min ((i + 1) * 64) p.length →
        out.getD j 0 = p.getD j 0 ^^^
          (block_bytes key ((ic + i) % 4294967296) nonce).getD (j - i * 64) 0 := by
  constructor
  · rw [chacha20_block_some key nonce hk hn (ic + i),
      chacha20_block_some key nonce hk hn ((ic + i) % 4294967296),
      block_bytes_mod key nonce (ic + i) hk hn]
  · intro out hout j hj1 hj2
    rw [chacha20_encrypt_some key nonce p ic hk hn] at hout
    obtain rfl := (Option.some.inj hout).symm
    rw [getD_map_range _ p.length j (by omega), keystream_byte,
      block_bytes_mod key nonce (ic + i) hk hn]
    have hdiv : j / 64 = i := by omega
    have hmod : j % 64 = j - i * 64 := by omega
    rw [hdiv, hmod, Nat.add_comm i ic]

/-- Witness for C6 at block index 0 of a 3-byte input. -/
theorem chacha20_encrypt_counter_wrap_c6_witness :
    chacha20_block rfc_key (1 + 0) rfc_nonce =
      chacha20_block rfc_key ((1 + 0) % 4294967296) rfc_nonce :=
  (chacha20_encrypt_counter_wrap_c6 rfc_key rfc_nonce [1, 2, 3] 1 0
    (by decide) (by decide) (by decide)).1
